import Mathlib

/-!
Verification of the evaluation-loop / metric-accumulation protocol of the
ImageNet validation notebook (`vision/classification/imagenet_validation.ipynb`).

The notebook delegates metric accumulation to the external library objects
`mx.metric.Accuracy()` and `mx.metric.TopKAccuracy(5)` (cells defining
`acc_top1` / `acc_top5` and the loop calling `acc_top1.update`,
`acc_top5.update`, `acc_top1.get`, `acc_top5.get`).  That library code is not
part of this repository, so the Accuracy Accumulator is modelled here from the
specification (spec sections 3, 4.1 and 7), with the tie-break pinned to
"lowest class index wins", as section 9 of the spec instructs.  The notebook
code that IS in the repository — `reset`, the batch loop, the final `get`, and
`num_batches = int(50000/batch_size)` — is embedded directly.

Scores are real-valued; since `update()` rejects NaN scores, the accepted
scores form a totally ordered field, modelled by `ℚ`.  A NaN score is modelled
as `none : Option ℚ`.
-/

namespace ImagenetValidation

/-- Modelled from the spec: a single per-class score of a Prediction.
`none` models a NaN score (rejected by `update`), `some q` an ordinary
real score. -/
abbrev Score := Option ℚ

/-- Modelled from the spec: the error taxonomy of section 7:
`InvalidBatchError` and `EmptyAccumulatorError`. -/
inductive AccError where
  | invalidBatchError : AccError
  | emptyAccumulatorError : AccError
deriving DecidableEq

/-- Modelled from the spec: the Accuracy Accumulator state of section 3 —
two running counters `top1_correct`, `top5_correct` plus
`total_examples_seen`, all non-negative integers. -/
structure AccState where
  top1_correct : ℕ
  top5_correct : ℕ
  total_examples_seen : ℕ
deriving DecidableEq

/-- Modelled from the spec: `reset()` clears all counters to zero
(notebook: `acc_top1.reset()` / `acc_top5.reset()`). -/
def reset : AccState := ⟨0, 0, 0⟩

/-- Score of class `i` in a validated score vector (out-of-range defaults are
never reached on validated data, where `i < s.length`). -/
def scoreAt (s : List ℚ) (i : ℕ) : ℚ := s.getD i 0

/-- Modelled from the spec: the pinned deterministic comparison used for both
top-1 and top-5 selection — class `i` is ranked strictly ahead of class `j`
iff `i` has a strictly larger score, or an equal score and a lower index
("lowest class index wins", spec section 9). -/
def beats (s : List ℚ) (i j : ℕ) : Prop :=
  scoreAt s j < scoreAt s i ∨ (scoreAt s i = scoreAt s j ∧ i < j)

instance (s : List ℚ) (i j : ℕ) : Decidable (beats s i j) := by
  unfold beats; infer_instance

/-- The set of class indices ranked strictly ahead of class `j`. -/
def beatSet (s : List ℚ) (j : ℕ) : Finset ℕ :=
  (Finset.range s.length).filter (fun i => beats s i j)

/-- The rank of class `j`: how many classes are ranked strictly ahead of it. -/
def rankOf (s : List ℚ) (j : ℕ) : ℕ := (beatSet s j).card

/-- Modelled from the spec: the top-1 check — the example counts as
top-1-correct iff the ground-truth label is the class with the strictly
maximum score (ties broken by lowest index), i.e. no class ranks ahead
of it. -/
def top1Check (s : List ℚ) (lbl : ℕ) : Prop := rankOf s lbl = 0

/-- Modelled from the spec: the top-5 check — the example counts as
top-5-correct iff the ground-truth label's score is among the 5 largest,
with the pinned tie-break, i.e. fewer than 5 classes rank ahead of it. -/
def top5Check (s : List ℚ) (lbl : ℕ) : Prop := rankOf s lbl < 5

instance (s : List ℚ) (lbl : ℕ) : Decidable (top1Check s lbl) := by
  unfold top1Check; infer_instance

instance (s : List ℚ) (lbl : ℕ) : Decidable (top5Check s lbl) := by
  unfold top5Check; infer_instance

/-- Modelled from the spec: the set of exactly `min 5 num_classes` class
indices deterministically selected as "the 5 largest" by the pinned
tie-break. -/
def top5Set (s : List ℚ) : Finset ℕ :=
  (Finset.range s.length).filter (fun j => rankOf s j < 5)

/-- Collect the scores of one Prediction, failing on any NaN score. -/
def collectScores : List Score → Option (List ℚ)
  | [] => some []
  | o :: rest => o.bind (fun q => (collectScores rest).map (fun qs => q :: qs))

/-- Modelled from the spec: validation of one (Prediction, GroundTruthLabel)
pair — the Prediction must have exactly `nc` scores, none of them NaN, and
the label must be a valid class index. -/
def validateExample (nc : ℕ) (p : List Score) (lbl : ℕ) : Option (List ℚ × ℕ) :=
  (collectScores p).bind (fun qs =>
    if p.length = nc ∧ lbl < nc then some (qs, lbl) else none)

/-- Validate a list of zipped (Prediction, GroundTruthLabel) pairs. -/
def validateAll (nc : ℕ) : List (List Score × ℕ) → Option (List (List ℚ × ℕ))
  | [] => some []
  | e :: rest =>
    (validateExample nc e.1 e.2).bind (fun v =>
      (validateAll nc rest).map (fun vs => v :: vs))

/-- Modelled from the spec: validation of one `update()` call — the
predictions and labels sequences must have equal length and every pair must
be valid. -/
def validateBatch (nc : ℕ) (preds : List (List Score)) (labels : List ℕ) :
    Option (List (List ℚ × ℕ)) :=
  if preds.length = labels.length then validateAll nc (preds.zip labels)
  else none

/-- Modelled from the spec: `update(predictions, labels)` — on an invalid
batch it fails with `InvalidBatchError` and, being a pure function on the
state, leaves the counters unchanged (all-or-nothing); on a valid batch it
increments the three counters by the batch's counts
(notebook: `acc_top1.update(label, outputs)` / `acc_top5.update(...)`). -/
def update (nc : ℕ) (st : AccState) (preds : List (List Score))
    (labels : List ℕ) : Except AccError AccState :=
  match validateBatch nc preds labels with
  | none => .error .invalidBatchError
  | some exs =>
    .ok { top1_correct := st.top1_correct +
            exs.countP (fun e => decide (top1Check e.1 e.2)),
          top5_correct := st.top5_correct +
            exs.countP (fun e => decide (top5Check e.1 e.2)),
          total_examples_seen := st.total_examples_seen + exs.length }

/-- Modelled from the spec: `finalize()` — fails with
`EmptyAccumulatorError` when no examples were seen, otherwise returns the
pair of accuracy fractions
(notebook: `acc_top1.get()` / `acc_top5.get()`). -/
def finalize (st : AccState) : Except AccError (ℚ × ℚ) :=
  if st.total_examples_seen = 0 then .error .emptyAccumulatorError
  else .ok ((st.top1_correct : ℚ) / (st.total_examples_seen : ℚ),
            (st.top5_correct : ℚ) / (st.total_examples_seen : ℚ))

/-- The notebook's evaluation loop, from a given state: one `update` per
batch, in order, stopping at the first error. -/
def runBatches (nc : ℕ) (st : AccState) :
    List (List (List Score) × List ℕ) → Except AccError AccState
  | [] => .ok st
  | b :: bs =>
    match update nc st b.1 b.2 with
    | .error e => .error e
    | .ok st' => runBatches nc st' bs

/-- A state reachable from `reset` by some sequence of successful
`update` calls. -/
def Reachable (nc : ℕ) (st : AccState) : Prop :=
  ∃ batches, runBatches nc reset batches = .ok st

/-- Fuel-indexed chunking helper: split a list into consecutive chunks of
`bs` elements (the last chunk may be shorter).  The fuel bounds the
recursion; `chunks` instantiates it with the list's length, which is
enough whenever `0 < bs`. -/
def chunksAux {α : Type*} (bs : ℕ) : ℕ → List α → List (List α)
  | 0, _ => []
  | _ + 1, [] => []
  | fuel + 1, x :: xs => (x :: xs).take bs :: chunksAux bs fuel ((x :: xs).drop bs)

/-- The batching performed by the notebook's data loader: the 50000
validation examples are split, in order, into consecutive batches of
`bs` examples, the last batch being a shorter remainder when `bs` does
not divide the total (the loader is constructed without dropping the
last incomplete batch). -/
def chunks {α : Type*} (bs : ℕ) (l : List α) : List (List α) :=
  chunksAux bs l.length l

/-- Turn a chunk of (Prediction, GroundTruthLabel) examples into the
(predictions, labels) pair passed to one `update` call. -/
def toBatch (c : List (List Score × ℕ)) : List (List Score) × List ℕ :=
  (c.map Prod.fst, c.map Prod.snd)

/-- The notebook's whole evaluation pass: reset, then one `update` per
loader batch, in order (`for i, batch in enumerate(val_data)` with
`acc_top1.update` / `acc_top5.update` in the body). -/
def evalLoop (nc bs : ℕ) (examples : List (List Score × ℕ)) :
    Except AccError AccState :=
  runBatches nc reset ((chunks bs examples).map toBatch)

/-- The notebook's progress denominator: `num_batches = int(50000/batch_size)`,
i.e. the floor of the division.  It is used only in the printed progress
messages, never in the metric computation (`evalLoop` does not mention it). -/
def num_batches (batch_size : ℕ) : ℕ := 50000 / batch_size

/-! ### Helper lemmas about validation -/

theorem collectScores_of_mem_none (p : List Score) (h : none ∈ p) :
    collectScores p = none := by
  induction p with
  | nil => cases h
  | cons o rest ih =>
    rcases List.mem_cons.mp h with h0 | h1
    · subst h0; simp [collectScores]
    · cases o <;> simp [collectScores, ih h1]

theorem collectScores_length (p : List Score) (qs : List ℚ)
    (h : collectScores p = some qs) : qs.length = p.length := by
  induction p generalizing qs with
  | nil =>
    simp only [collectScores, Option.some.injEq] at h
    subst h; rfl
  | cons o rest ih =>
    cases o with
    | none => simp [collectScores] at h
    | some q =>
      cases hr : collectScores rest with
      | none => rw [collectScores, hr] at h; cases h
      | some qs' =>
        rw [collectScores, hr] at h
        simp only [Option.some_bind, Option.map_some', Option.some.injEq] at h
        subst h
        simp [ih qs' hr]

theorem validateExample_some_elim (nc : ℕ) (p : List Score) (lbl : ℕ)
    (v : List ℚ × ℕ) (h : validateExample nc p lbl = some v) :
    ∃ qs, collectScores p = some qs ∧ v = (qs, lbl) ∧
      qs.length = nc ∧ lbl < nc := by
  cases hc : collectScores p with
  | none => rw [validateExample, hc] at h; cases h
  | some qs =>
    rw [validateExample, hc] at h
    simp only [Option.some_bind] at h
    by_cases hcond : p.length = nc ∧ lbl < nc
    · rw [if_pos hcond] at h
      cases h
      exact ⟨qs, rfl, rfl, by rw [collectScores_length p qs hc, hcond.1],
        hcond.2⟩
    · rw [if_neg hcond] at h; cases h

theorem validateAll_length (nc : ℕ) (l : List (List Score × ℕ))
    (vs : List (List ℚ × ℕ)) (h : validateAll nc l = some vs) :
    vs.length = l.length := by
  induction l generalizing vs with
  | nil =>
    simp only [validateAll, Option.some.injEq] at h
    subst h; rfl
  | cons e rest ih =>
    cases he : validateExample nc e.1 e.2 with
    | none => rw [validateAll, he] at h; cases h
    | some v =>
      cases hr : validateAll nc rest with
      | none => rw [validateAll, he, hr] at h; cases h
      | some vs' =>
        rw [validateAll, he, hr] at h
        simp only [Option.some_bind, Option.map_some', Option.some.injEq] at h
        subst h
        simp [ih vs' hr]

theorem validateAll_mem (nc : ℕ) (l : List (List Score × ℕ))
    (vs : List (List ℚ × ℕ)) (h : validateAll nc l = some vs) :
    ∀ v ∈ vs, v.1.length = nc ∧ v.2 < nc := by
  induction l generalizing vs with
  | nil =>
    simp only [validateAll, Option.some.injEq] at h
    subst h; intro v hv; cases hv
  | cons e rest ih =>
    cases he : validateExample nc e.1 e.2 with
    | none => rw [validateAll, he] at h; cases h
    | some v =>
      cases hr : validateAll nc rest with
      | none => rw [validateAll, he, hr] at h; cases h
      | some vs' =>
        rw [validateAll, he, hr] at h
        simp only [Option.some_bind, Option.map_some', Option.some.injEq] at h
        subst h
        intro w hw
        rcases List.mem_cons.mp hw with h0 | h1
        · subst h0
          obtain ⟨qs, _, hvq, hqlen, hlbl⟩ :=
            validateExample_some_elim nc e.1 e.2 w he
          rw [hvq]
          exact ⟨hqlen, hlbl⟩
        · exact ih vs' hr w h1

theorem validateAll_append (nc : ℕ) (l₁ l₂ : List (List Score × ℕ))
    (v₁ v₂ : List (List ℚ × ℕ)) (h₁ : validateAll nc l₁ = some v₁)
    (h₂ : validateAll nc l₂ = some v₂) :
    validateAll nc (l₁ ++ l₂) = some (v₁ ++ v₂) := by
  induction l₁ generalizing v₁ with
  | nil =>
    simp only [validateAll, Option.some.injEq] at h₁
    subst h₁; simpa using h₂
  | cons e rest ih =>
    cases he : validateExample nc e.1 e.2 with
    | none => rw [validateAll, he] at h₁; cases h₁
    | some v =>
      cases hr : validateAll nc rest with
      | none => rw [validateAll, he, hr] at h₁; cases h₁
      | some vs' =>
        rw [validateAll, he, hr] at h₁
        simp only [Option.some_bind, Option.map_some', Option.some.injEq] at h₁
        subst h₁
        have hrec := ih vs' hr
        rw [List.cons_append, validateAll, he, hrec]
        simp

theorem validateAll_none_of_mem (nc : ℕ) (l : List (List Score × ℕ))
    (e : List Score × ℕ) (he : e ∈ l)
    (hv : validateExample nc e.1 e.2 = none) : validateAll nc l = none := by
  induction l with
  | nil => cases he
  | cons a rest ih =>
    rcases List.mem_cons.mp he with h0 | h1
    · subst h0
      rw [validateAll, hv]
      rfl
    · rw [validateAll, ih h1]
      cases validateExample nc a.1 a.2 <;> rfl

theorem validateAll_some_of_forall (nc : ℕ) (l : List (List Score × ℕ))
    (h : ∀ e ∈ l, (validateExample nc e.1 e.2).isSome) :
    ∃ vs, validateAll nc l = some vs := by
  induction l with
  | nil => exact ⟨[], rfl⟩
  | cons e rest ih =>
    obtain ⟨vs, hvs⟩ := ih (fun x hx => h x (List.mem_cons_of_mem e hx))
    have he := h e (List.mem_cons_self e rest)
    cases hv : validateExample nc e.1 e.2 with
    | none => rw [hv] at he; cases he
    | some v => exact ⟨v :: vs, by rw [validateAll, hv, hvs]; rfl⟩

theorem validateBatch_some_elim (nc : ℕ) (preds : List (List Score))
    (labels : List ℕ) (exs : List (List ℚ × ℕ))
    (h : validateBatch nc preds labels = some exs) :
    preds.length = labels.length ∧
      validateAll nc (preds.zip labels) = some exs ∧
      exs.length = labels.length := by
  by_cases hl : preds.length = labels.length
  · rw [validateBatch, if_pos hl] at h
    refine ⟨hl, h, ?_⟩
    rw [validateAll_length nc _ _ h, List.length_zip, hl, min_self]
  · rw [validateBatch, if_neg hl] at h; cases h

/-! ### Helper lemmas about `update` and `runBatches` -/

theorem update_ok_elim (nc : ℕ) (st : AccState) (preds : List (List Score))
    (labels : List ℕ) (st' : AccState)
    (h : update nc st preds labels = .ok st') :
    ∃ exs, validateBatch nc preds labels = some exs ∧
      st'.top1_correct = st.top1_correct +
        exs.countP (fun e => decide (top1Check e.1 e.2)) ∧
      st'.top5_correct = st.top5_correct +
        exs.countP (fun e => decide (top5Check e.1 e.2)) ∧
      st'.total_examples_seen = st.total_examples_seen + exs.length := by
  cases hv : validateBatch nc preds labels with
  | none => rw [update, hv] at h; cases h
  | some exs =>
    rw [update, hv] at h
    cases h
    exact ⟨exs, rfl, rfl, rfl, rfl⟩

theorem update_ok_intro (nc : ℕ) (st : AccState) (preds : List (List Score))
    (labels : List ℕ) (exs : List (List ℚ × ℕ))
    (hv : validateBatch nc preds labels = some exs) :
    update nc st preds labels =
      .ok { top1_correct := st.top1_correct +
              exs.countP (fun e => decide (top1Check e.1 e.2)),
            top5_correct := st.top5_correct +
              exs.countP (fun e => decide (top5Check e.1 e.2)),
            total_examples_seen := st.total_examples_seen + exs.length } := by
  rw [update, hv]

theorem update_error_of_validate_none (nc : ℕ) (st : AccState)
    (preds : List (List Score)) (labels : List ℕ)
    (hv : validateBatch nc preds labels = none) :
    update nc st preds labels = .error .invalidBatchError := by
  rw [update, hv]

theorem update_nil (nc : ℕ) (st : AccState) :
    update nc st [] [] = .ok st := by
  cases st; rfl

theorem update_append (nc : ℕ) (st st₁ st₂ : AccState)
    (p₁ p₂ : List (List Score)) (l₁ l₂ : List ℕ)
    (h₁ : update nc st p₁ l₁ = .ok st₁) (h₂ : update nc st₁ p₂ l₂ = .ok st₂) :
    update nc st (p₁ ++ p₂) (l₁ ++ l₂) = .ok st₂ := by
  obtain ⟨e₁, hv₁, ha₁, hb₁, hc₁⟩ := update_ok_elim nc st p₁ l₁ st₁ h₁
  obtain ⟨e₂, hv₂, ha₂, hb₂, hc₂⟩ := update_ok_elim nc st₁ p₂ l₂ st₂ h₂
  obtain ⟨hl₁, hva₁, -⟩ := validateBatch_some_elim nc p₁ l₁ e₁ hv₁
  obtain ⟨hl₂, hva₂, -⟩ := validateBatch_some_elim nc p₂ l₂ e₂ hv₂
  have hvb : validateBatch nc (p₁ ++ p₂) (l₁ ++ l₂) = some (e₁ ++ e₂) := by
    rw [validateBatch, if_pos (by simp [hl₁, hl₂]), List.zip_append hl₁]
    exact validateAll_append nc _ _ _ _ hva₁ hva₂
  rw [update_ok_intro nc st _ _ _ hvb]
  cases st₂ with
  | mk a b c =>
    simp only [AccState.mk.injEq, Except.ok.injEq] at ha₂ hb₂ hc₂ ⊢
    simp only [List.countP_append, List.length_append]
    refine ⟨?_, ?_, ?_⟩ <;> omega

theorem runBatches_cons_ok (nc : ℕ) (st : AccState)
    (b : List (List Score) × List ℕ) (bs : List (List (List Score) × List ℕ))
    (st'' : AccState) (h : runBatches nc st (b :: bs) = .ok st'') :
    ∃ st', update nc st b.1 b.2 = .ok st' ∧ runBatches nc st' bs = .ok st'' := by
  cases hu : update nc st b.1 b.2 with
  | error e => rw [runBatches, hu] at h; cases h
  | ok st' => rw [runBatches, hu] at h; exact ⟨st', rfl, h⟩

theorem runBatches_nil_ok (nc : ℕ) (st st' : AccState)
    (h : runBatches nc st [] = .ok st') : st = st' := by
  rw [runBatches] at h
  cases h
  rfl

theorem runBatches_eq_single (nc : ℕ) (st : AccState)
    (batches : List (List (List Score) × List ℕ)) (st' : AccState)
    (h : runBatches nc st batches = .ok st') :
    update nc st (batches.map Prod.fst).flatten (batches.map Prod.snd).flatten
      = .ok st' := by
  induction batches generalizing st with
  | nil =>
    rw [← runBatches_nil_ok nc st st' h]
    simpa using update_nil nc st
  | cons b bs ih =>
    obtain ⟨st₁, hu, hr⟩ := runBatches_cons_ok nc st b bs st' h
    have hrest := ih st₁ hr
    simpa using update_append nc st st₁ st' b.1 _ b.2 _ hu hrest

theorem runBatches_total_eq (nc : ℕ) (st : AccState)
    (batches : List (List (List Score) × List ℕ)) (st' : AccState)
    (h : runBatches nc st batches = .ok st') :
    st'.total_examples_seen = st.total_examples_seen +
      (batches.map (fun b => b.2.length)).sum := by
  induction batches generalizing st with
  | nil =>
    rw [← runBatches_nil_ok nc st st' h]
    simp
  | cons b bs ih =>
    obtain ⟨st₁, hu, hr⟩ := runBatches_cons_ok nc st b bs st' h
    obtain ⟨exs, hv, -, -, hc⟩ := update_ok_elim nc st b.1 b.2 st₁ hu
    obtain ⟨-, -, hlen⟩ := validateBatch_some_elim nc b.1 b.2 exs hv
    rw [ih st₁ hr, hc, hlen]
    simp [Nat.add_assoc]

/-! ### Helper lemmas about the pinned ranking order -/

theorem beats_irrefl (s : List ℚ) (i : ℕ) : ¬ beats s i i := by
  rintro (h | ⟨-, h⟩)
  · exact lt_irrefl _ h
  · exact Nat.lt_irrefl i h

theorem beats_trans (s : List ℚ) {i j k : ℕ} (h₁ : beats s i j)
    (h₂ : beats s j k) : beats s i k := by
  rcases h₁ with h₁ | ⟨h₁e, h₁l⟩ <;> rcases h₂ with h₂ | ⟨h₂e, h₂l⟩
  · exact Or.inl (lt_trans h₂ h₁)
  · exact Or.inl (h₂e ▸ h₁)
  · exact Or.inl (h₁e ▸ h₂)
  · exact Or.inr ⟨h₁e.trans h₂e, Nat.lt_trans h₁l h₂l⟩

theorem beats_total (s : List ℚ) {i j : ℕ} (h : i ≠ j) :
    beats s i j ∨ beats s j i := by
  rcases lt_trichotomy (scoreAt s i) (scoreAt s j) with hlt | heq | hgt
  · exact Or.inr (Or.inl hlt)
  · rcases Nat.lt_or_ge i j with hij | hij
    · exact Or.inl (Or.inr ⟨heq, hij⟩)
    · exact Or.inr (Or.inr ⟨heq.symm, Nat.lt_of_le_of_ne hij (Ne.symm h)⟩)
  · exact Or.inl (Or.inl hgt)

theorem mem_beatSet_iff (s : List ℚ) (i j : ℕ) :
    i ∈ beatSet s j ↔ i < s.length ∧ beats s i j := by
  simp [beatSet, Finset.mem_filter, Finset.mem_range]

theorem rankOf_lt_of_beats (s : List ℚ) {i j : ℕ} (hi : i < s.length)
    (hb : beats s i j) : rankOf s i < rankOf s j := by
  apply Finset.card_lt_card
  have hsub : beatSet s i ⊆ beatSet s j := by
    intro k hk
    rw [mem_beatSet_iff] at hk ⊢
    exact ⟨hk.1, beats_trans s hk.2 hb⟩
  rw [Finset.ssubset_iff_of_subset hsub]
  exact ⟨i, (mem_beatSet_iff s i j).mpr ⟨hi, hb⟩,
    fun hmem => beats_irrefl s i ((mem_beatSet_iff s i i).mp hmem).2⟩

theorem rankOf_lt_length (s : List ℚ) {j : ℕ} (hj : j < s.length) :
    rankOf s j < s.length := by
  have hsub : beatSet s j ⊆ (Finset.range s.length).erase j := by
    intro k hk
    rw [mem_beatSet_iff] at hk
    rw [Finset.mem_erase]
    refine ⟨fun hkj => ?_, Finset.mem_range.mpr hk.1⟩
    exact beats_irrefl s j (hkj ▸ hk.2)
  have := Finset.card_le_card hsub
  rw [Finset.card_erase_of_mem (Finset.mem_range.mpr hj),
    Finset.card_range] at this
  unfold rankOf
  omega

theorem rankOf_injOn (s : List ℚ) :
    Set.InjOn (rankOf s) ↑(Finset.range s.length) := by
  intro i hi j hj heq
  simp only [Finset.coe_range, Set.mem_Iio] at hi hj
  by_contra hne
  rcases beats_total s hne with hb | hb
  · exact absurd heq (Nat.ne_of_lt (rankOf_lt_of_beats s hi hb))
  · exact absurd heq.symm (Nat.ne_of_lt (rankOf_lt_of_beats s hj hb))

theorem rankOf_image (s : List ℚ) :
    (Finset.range s.length).image (rankOf s) = Finset.range s.length := by
  apply Finset.eq_of_subset_of_card_le
  · intro k hk
    rw [Finset.mem_image] at hk
    obtain ⟨j, hj, rfl⟩ := hk
    exact Finset.mem_range.mpr (rankOf_lt_length s (Finset.mem_range.mp hj))
  · rw [Finset.card_image_of_injOn (rankOf_injOn s)]

theorem mem_top5Set_iff (s : List ℚ) (j : ℕ) :
    j ∈ top5Set s ↔ j < s.length ∧ rankOf s j < 5 := by
  simp [top5Set, Finset.mem_filter, Finset.mem_range]

theorem top5Set_card (s : List ℚ) : (top5Set s).card = min 5 s.length := by
  have hsub : top5Set s ⊆ Finset.range s.length := Finset.filter_subset _ _
  have hinj : Set.InjOn (rankOf s) ↑(top5Set s) :=
    (rankOf_injOn s).mono (by exact_mod_cast hsub)
  rw [← Finset.card_image_of_injOn hinj]
  have himg : (top5Set s).image (rankOf s) = Finset.range (min 5 s.length) := by
    ext k
    simp only [Finset.mem_image, Finset.mem_range, Nat.lt_min]
    constructor
    · rintro ⟨j, hj, rfl⟩
      rw [mem_top5Set_iff] at hj
      exact ⟨hj.2, rankOf_lt_length s hj.1⟩
    · rintro ⟨hk5, hkn⟩
      have hmem : k ∈ (Finset.range s.length).image (rankOf s) := by
        rw [rankOf_image]
        exact Finset.mem_range.mpr hkn
      rw [Finset.mem_image] at hmem
      obtain ⟨j, hj, rfl⟩ := hmem
      exact ⟨j, (mem_top5Set_iff s j).mpr
        ⟨Finset.mem_range.mp hj, hk5⟩, rfl⟩
  rw [himg, Finset.card_range]

theorem top1Check_iff_argmax (s : List ℚ) (lbl i : ℕ) (hlbl : lbl < s.length)
    (hi : i < s.length)
    (hmax : ∀ j, j < s.length → j ≠ i → scoreAt s j < scoreAt s i) :
    top1Check s lbl ↔ lbl = i := by
  constructor
  · intro h
    by_contra hne
    have hb : beats s i lbl := Or.inl (hmax lbl hlbl hne)
    have hmem : i ∈ beatSet s lbl := (mem_beatSet_iff s i lbl).mpr ⟨hi, hb⟩
    rw [top1Check, rankOf, Finset.card_eq_zero] at h
    rw [h] at hmem
    cases hmem
  · rintro rfl
    rw [top1Check, rankOf, Finset.card_eq_zero,
      Finset.eq_empty_iff_forall_not_mem]
    intro j hj
    rw [mem_beatSet_iff] at hj
    obtain ⟨hjl, hb⟩ := hj
    rcases hb with hb | ⟨hbe, hbl⟩
    · by_cases hji : j = lbl
      · exact lt_irrefl _ (hji ▸ hb)
      · exact absurd hb (not_lt_of_gt (hmax j hjl hji))
    · exact absurd hbe (ne_of_lt (hmax j hjl (Nat.ne_of_lt hbl)))

theorem top5Check_of_top1Check (s : List ℚ) (lbl : ℕ)
    (h : top1Check s lbl) : top5Check s lbl := by
  rw [top1Check] at h
  rw [top5Check, h]
  omega

/-! ### Invariant-preservation lemmas -/

theorem update_invariant (nc : ℕ) (st : AccState) (preds : List (List Score))
    (labels : List ℕ) (st' : AccState)
    (h : update nc st preds labels = .ok st')
    (h1 : st.top1_correct ≤ st.top5_correct)
    (h2 : st.top5_correct ≤ st.total_examples_seen) :
    st'.top1_correct ≤ st'.top5_correct ∧
      st'.top5_correct ≤ st'.total_examples_seen := by
  obtain ⟨exs, hv, ha, hb, hc⟩ := update_ok_elim nc st preds labels st' h
  rw [ha, hb, hc]
  constructor
  · refine Nat.add_le_add h1 (List.countP_mono_left ?_)
    intro e he hp
    simp only [decide_eq_true_eq] at hp ⊢
    exact top5Check_of_top1Check e.1 e.2 hp
  · exact Nat.add_le_add h2 (List.countP_le_length _)

theorem runBatches_invariant (nc : ℕ) (st : AccState)
    (batches : List (List (List Score) × List ℕ)) (st' : AccState)
    (h : runBatches nc st batches = .ok st')
    (h1 : st.top1_correct ≤ st.top5_correct)
    (h2 : st.top5_correct ≤ st.total_examples_seen) :
    st'.top1_correct ≤ st'.top5_correct ∧
      st'.top5_correct ≤ st'.total_examples_seen := by
  induction batches generalizing st with
  | nil =>
    rw [← runBatches_nil_ok nc st st' h]
    exact ⟨h1, h2⟩
  | cons b bs ih =>
    obtain ⟨st₁, hu, hr⟩ := runBatches_cons_ok nc st b bs st' h
    obtain ⟨g1, g2⟩ := update_invariant nc st b.1 b.2 st₁ hu h1 h2
    exact ih st₁ hr g1 g2

/-! ### Helper lemmas about chunking -/

theorem chunksAux_nil {α : Type*} (bs fuel : ℕ) :
    chunksAux bs fuel ([] : List α) = [] := by
  cases fuel <;> rfl

theorem chunksAux_congr {α : Type*} (bs : ℕ) (hbs : 0 < bs) :
    ∀ f₁ f₂ (l : List α), l.length ≤ f₁ → l.length ≤ f₂ →
      chunksAux bs f₁ l = chunksAux bs f₂ l := by
  intro f₁
  induction f₁ with
  | zero =>
    intro f₂ l h₁ h₂
    have hl : l = [] := by
      cases l with
      | nil => rfl
      | cons x xs => simp at h₁
    subst hl
    rw [chunksAux_nil, chunksAux_nil]
  | succ f ih =>
    intro f₂ l h₁ h₂
    cases l with
    | nil => rw [chunksAux_nil, chunksAux_nil]
    | cons x xs =>
      cases f₂ with
      | zero => simp at h₂
      | succ f₂' =>
        show (x :: xs).take bs :: chunksAux bs f ((x :: xs).drop bs) =
          (x :: xs).take bs :: chunksAux bs f₂' ((x :: xs).drop bs)
        congr 1
        apply ih
        · rw [List.length_drop, List.length_cons]
          simp at h₁
          omega
        · rw [List.length_drop, List.length_cons]
          simp at h₂
          omega

theorem chunks_nil {α : Type*} (bs : ℕ) : chunks bs ([] : List α) = [] := rfl

theorem chunks_cons {α : Type*} (bs : ℕ) (hbs : 0 < bs) (x : α) (xs : List α) :
    chunks bs (x :: xs) = (x :: xs).take bs :: chunks bs ((x :: xs).drop bs) := by
  show chunksAux bs (x :: xs).length (x :: xs) = _
  rw [List.length_cons]
  show (x :: xs).take bs :: chunksAux bs xs.length ((x :: xs).drop bs) = _
  rw [chunks]
  congr 1
  apply chunksAux_congr bs hbs
  · rw [List.length_drop]
    simp
    omega
  · exact le_refl _

theorem chunks_flatten {α : Type*} (bs : ℕ) (hbs : 0 < bs) :
    ∀ l : List α, (chunks bs l).flatten = l
  | [] => by rw [chunks_nil]; rfl
  | x :: xs => by
    rw [chunks_cons bs hbs x xs, List.flatten_cons,
      chunks_flatten bs hbs ((x :: xs).drop bs), List.take_append_drop]
termination_by l => l.length
decreasing_by
  simp [List.length_drop]
  omega

theorem chunks_length_eq {α : Type*} (bs : ℕ) (hbs : 0 < bs) :
    ∀ l : List α, (chunks bs l).length = (l.length + bs - 1) / bs
  | [] => by
    rw [chunks_nil]
    symm
    simp only [List.length_nil]
    apply Nat.div_eq_of_lt
    omega
  | x :: xs => by
    rw [chunks_cons bs hbs x xs, List.length_cons,
      chunks_length_eq bs hbs ((x :: xs).drop bs), List.length_drop,
      List.length_cons]
    rcases le_or_lt bs (xs.length + 1) with hle | hlt
    · have e1 : xs.length + 1 - bs + bs - 1 = xs.length := by omega
      have e2 : xs.length + 1 + bs - 1 = xs.length + bs := by omega
      rw [e1, e2, Nat.add_div_right _ hbs]
    · have e1 : xs.length + 1 - bs + bs - 1 = bs - 1 := by omega
      have e2 : xs.length + 1 + bs - 1 = xs.length + bs := by omega
      rw [e1, e2, Nat.add_div_right _ hbs,
        Nat.div_eq_of_lt (show bs - 1 < bs by omega),
        Nat.div_eq_of_lt (show xs.length < bs by omega)]
termination_by l => l.length
decreasing_by
  simp [List.length_drop]
  omega

theorem mem_of_mem_chunks {α : Type*} (bs : ℕ) (hbs : 0 < bs) (l : List α)
    (c : List α) (hc : c ∈ chunks bs l) (x : α) (hx : x ∈ c) : x ∈ l := by
  rw [← chunks_flatten bs hbs l]
  exact List.mem_flatten.mpr ⟨c, hc, hx⟩

theorem zip_map_fst_snd {α β : Type*} (l : List (α × β)) :
    (l.map Prod.fst).zip (l.map Prod.snd) = l := by
  induction l with
  | nil => rfl
  | cons a rest ih => simp [ih]

theorem validateBatch_toBatch (nc : ℕ) (c : List (List Score × ℕ))
    (h : ∀ e ∈ c, (validateExample nc e.1 e.2).isSome) :
    ∃ vs, validateBatch nc (toBatch c).1 (toBatch c).2 = some vs := by
  obtain ⟨vs, hvs⟩ := validateAll_some_of_forall nc c h
  refine ⟨vs, ?_⟩
  show validateBatch nc (c.map Prod.fst) (c.map Prod.snd) = some vs
  rw [validateBatch, if_pos (by simp), zip_map_fst_snd, hvs]

theorem runBatches_ok_of_valid (nc : ℕ) (st : AccState)
    (batches : List (List (List Score) × List ℕ))
    (h : ∀ b ∈ batches, ∃ vs, validateBatch nc b.1 b.2 = some vs) :
    ∃ st', runBatches nc st batches = .ok st' := by
  induction batches generalizing st with
  | nil => exact ⟨st, rfl⟩
  | cons b bs ih =>
    obtain ⟨vs, hvs⟩ := h b (List.mem_cons_self b bs)
    have hu := update_ok_intro nc st b.1 b.2 vs hvs
    obtain ⟨st', hrun⟩ := ih _ (fun x hx => h x (List.mem_cons_of_mem b hx))
    refine ⟨st', ?_⟩
    rw [runBatches, hu]
    exact hrun

/-! ### Claim theorems -/

/-- C5: `update()` on an invalid batch — mismatched lengths of the
predictions and labels sequences, a label outside `[0, num_classes)`, a
prediction whose score vector length differs from `num_classes`, or a NaN
score — fails with `InvalidBatchError`.  The model's `update` is a pure
function of the state that returns only the error in this case, so all
three counters are left unchanged (all-or-nothing per call). -/
theorem claim_C5_invalid_batch (nc : ℕ) (st : AccState)
    (preds : List (List Score)) (labels : List ℕ)
    (h : preds.length ≠ labels.length ∨
      ∃ pl ∈ preds.zip labels,
        pl.1.length ≠ nc ∨ nc ≤ pl.2 ∨ none ∈ pl.1) :
    update nc st preds labels = .error .invalidBatchError := by
  by_cases hl : preds.length = labels.length
  · rcases h with h | ⟨pl, hmem, hbad⟩
    · exact absurd hl h
    · apply update_error_of_validate_none
      rw [validateBatch, if_pos hl]
      apply validateAll_none_of_mem nc _ pl hmem
      rcases hbad with hbad | hbad | hbad
      · cases hc : collectScores pl.1 with
        | none => rw [validateExample, hc]; rfl
        | some qs =>
          rw [validateExample, hc]
          simp only [Option.some_bind]
          rw [if_neg (fun hcc => hbad hcc.1)]
      · cases hc : collectScores pl.1 with
        | none => rw [validateExample, hc]; rfl
        | some qs =>
          rw [validateExample, hc]
          simp only [Option.some_bind]
          rw [if_neg (fun hcc => absurd hcc.2 (not_lt_of_ge hbad))]
      · rw [validateExample, collectScores_of_mem_none pl.1 hbad]; rfl
  · apply update_error_of_validate_none
    rw [validateBatch, if_neg hl]

/-- Witness for C5: a batch with one prediction but no label fails with
`InvalidBatchError` and produces no new state. -/
theorem claim_C5_witness :
    update 2 reset [[some 1, some 0]] [] = .error .invalidBatchError :=
  claim_C5_invalid_batch 2 reset [[some 1, some 0]] [] (Or.inl (by decide))

/-- C6: `finalize()` on an accumulator with `total_examples_seen = 0` fails
with `EmptyAccumulatorError` (rather than returning NaN or raising a
generic arithmetic fault — in the model it returns no pair at all). -/
theorem claim_C6_finalize_empty (st : AccState)
    (h : st.total_examples_seen = 0) :
    finalize st = .error .emptyAccumulatorError := by
  rw [finalize, if_pos h]

/-- Witness for C6: `finalize` straight after `reset`. -/
theorem claim_C6_witness : finalize reset = .error .emptyAccumulatorError :=
  claim_C6_finalize_empty reset rfl

/-- C7: starting from `reset`, after any sequence of successful `update()`
calls, `total_examples_seen` equals the sum of the per-call batch lengths,
independently of the chunking. -/
theorem claim_C7_total_is_sum (nc : ℕ)
    (batches : List (List (List Score) × List ℕ)) (st : AccState)
    (h : runBatches nc reset batches = .ok st) :
    st.total_examples_seen = (batches.map (fun b => b.2.length)).sum := by
  have htot := runBatches_total_eq nc reset batches st h
  simpa [reset] using htot

/-- Witness for C7: two batches of sizes 1 and 2 give a total of 3. -/
theorem claim_C7_witness :
    (AccState.mk 3 3 3).total_examples_seen =
      ([([[some 0]], [0]), ([[some 0], [some 0]], [0, 0])].map
        (fun b => b.2.length)).sum :=
  claim_C7_total_is_sum 1 [([[some 0]], [0]), ([[some 0], [some 0]], [0, 0])]
    (AccState.mk 3 3 3) rfl

/-- C8: every successful `update()` leaves each of the three counters
greater than or equal to its previous value (they are `ℕ`-valued in the
model, hence always non-negative integers; `finalize` takes the state
only as input and returns a pair of fractions, so it never mutates the
counters). -/
theorem claim_C8_counters_monotone (nc : ℕ) (st : AccState)
    (preds : List (List Score)) (labels : List ℕ) (st' : AccState)
    (h : update nc st preds labels = .ok st') :
    st.top1_correct ≤ st'.top1_correct ∧
      st.top5_correct ≤ st'.top5_correct ∧
      st.total_examples_seen ≤ st'.total_examples_seen := by
  obtain ⟨exs, -, ha, hb, hc⟩ := update_ok_elim nc st preds labels st' h
  rw [ha, hb, hc]
  exact ⟨Nat.le_add_right _ _, Nat.le_add_right _ _, Nat.le_add_right _ _⟩

/-- Witness for C8: a concrete single-example update. -/
theorem claim_C8_witness :
    reset.top1_correct ≤ (AccState.mk 0 1 1).top1_correct ∧
      reset.top5_correct ≤ (AccState.mk 0 1 1).top5_correct ∧
      reset.total_examples_seen ≤ (AccState.mk 0 1 1).total_examples_seen :=
  claim_C8_counters_monotone 2 reset [[some 0, some 1]] [0]
    (AccState.mk 0 1 1) rfl

/-- C9: after every successful run from `reset` (hence at every
`finalize()`), `top1_correct ≤ top5_correct ≤ total_examples_seen`: every
top-1-correct example is also top-5-correct (its rank is 0, hence < 5),
and both metrics are fed the same batches. -/
theorem claim_C9_top1_le_top5_le_total (nc : ℕ)
    (batches : List (List (List Score) × List ℕ)) (st : AccState)
    (h : runBatches nc reset batches = .ok st) :
    st.top1_correct ≤ st.top5_correct ∧
      st.top5_correct ≤ st.total_examples_seen :=
  runBatches_invariant nc reset batches st h (le_refl 0) (le_refl 0)

/-- Witness for C9: one batch of two examples, one top-1-correct and one
only top-5-correct. -/
theorem claim_C9_witness :
    (AccState.mk 1 2 2).top1_correct ≤ (AccState.mk 1 2 2).top5_correct ∧
      (AccState.mk 1 2 2).top5_correct ≤
        (AccState.mk 1 2 2).total_examples_seen :=
  claim_C9_top1_le_top5_le_total 2
    [([[some 1, some 0], [some 0, some 1]], [0, 0])] (AccState.mk 1 2 2) rfl

/-- C1: for every partition of a sequence of valid examples into batches,
`reset` followed by one `update()` per batch and then `finalize()` yields
the same result as processing the whole sequence as a single batch: the
final state is literally the same, so the pair of fractions returned by
`finalize` is the same; batch sizes and boundaries do not affect it. -/
theorem claim_C1_batch_invariance (nc : ℕ)
    (batches : List (List (List Score) × List ℕ)) (st : AccState)
    (h : runBatches nc reset batches = .ok st) :
    update nc reset (batches.map Prod.fst).flatten
        (batches.map Prod.snd).flatten = .ok st ∧
      Except.bind (runBatches nc reset batches) finalize =
        Except.bind (update nc reset (batches.map Prod.fst).flatten
          (batches.map Prod.snd).flatten) finalize := by
  have hs := runBatches_eq_single nc reset batches st h
  exact ⟨hs, by rw [h, hs]⟩

/-- Witness for C1: two singleton batches versus their concatenation. -/
theorem claim_C1_witness :
    update 2 reset
        (([([[some 1, some 0]], [0]), ([[some 0, some 1]], [0])].map
          Prod.fst).flatten)
        (([([[some 1, some 0]], [0]), ([[some 0, some 1]], [0])].map
          Prod.snd).flatten) = .ok (AccState.mk 1 2 2) ∧
      Except.bind (runBatches 2 reset
        [([[some 1, some 0]], [0]), ([[some 0, some 1]], [0])]) finalize =
        Except.bind (update 2 reset
          (([([[some 1, some 0]], [0]), ([[some 0, some 1]], [0])].map
            Prod.fst).flatten)
          (([([[some 1, some 0]], [0]), ([[some 0, some 1]], [0])].map
            Prod.snd).flatten)) finalize :=
  claim_C1_batch_invariance 2
    [([[some 1, some 0]], [0]), ([[some 0, some 1]], [0])]
    (AccState.mk 1 2 2) rfl

/-- C2: a valid (prediction, label) pair processed by `update()` increments
`top1_correct` (by exactly 1) iff the class index carrying the strictly
maximum score equals the ground-truth label. -/
theorem claim_C2_top1_iff_strict_max (nc : ℕ) (st : AccState)
    (p : List Score) (lbl : ℕ) (st' : AccState) (qs : List ℚ)
    (hq : collectScores p = some qs)
    (hup : update nc st [p] [lbl] = .ok st')
    (i : ℕ) (hi : i < qs.length)
    (hmax : ∀ j, j < qs.length → j ≠ i → scoreAt qs j < scoreAt qs i) :
    st'.top1_correct = st.top1_correct + 1 ↔ lbl = i := by
  obtain ⟨exs, hv, ha, -, -⟩ := update_ok_elim nc st [p] [lbl] st' hup
  obtain ⟨-, hva, -⟩ := validateBatch_some_elim nc [p] [lbl] exs hv
  have hzip : ([p] : List (List Score)).zip [lbl] = [(p, lbl)] := rfl
  rw [hzip] at hva
  cases hve : validateExample nc p lbl with
  | none => rw [validateAll, hve] at hva; cases hva
  | some v =>
    rw [validateAll, hve] at hva
    simp only [validateAll, Option.some_bind, Option.map_some',
      Option.some.injEq] at hva
    obtain ⟨qs₀, hqs₀, hveq, hlen, hlbl⟩ :=
      validateExample_some_elim nc p lbl v hve
    rw [hq] at hqs₀
    cases hqs₀
    subst hveq
    rw [← hva] at ha
    rw [ha]
    simp only [List.countP_cons, List.countP_nil]
    have hlbl' : lbl < qs.length := by rw [hlen]; exact hlbl
    rw [← top1Check_iff_argmax qs lbl i hlbl' hi hmax]
    by_cases hc : top1Check qs lbl
    · simp [hc]
    · simp [hc]

/-- Witness for C2: scores `[0, 1]`, label 1, strict maximum at index 1. -/
theorem claim_C2_witness :
    (AccState.mk 1 1 1).top1_correct = reset.top1_correct + 1 ↔ 1 = 1 :=
  claim_C2_top1_iff_strict_max 2 reset [some 0, some 1] 1 (AccState.mk 1 1 1)
    [0, 1] rfl rfl 1 (by norm_num)
    (by
      intro j hj hne
      have hj0 : j = 0 := by
        simp only [List.length_cons, List.length_nil] at hj
        omega
      subst hj0
      show scoreAt [0, 1] 0 < scoreAt [0, 1] 1
      norm_num [scoreAt])

/-- C3: a valid (prediction, label) pair processed by `update()` increments
`top5_correct` (by exactly 1) iff the label lies in the deterministically
selected set of the 5 highest-ranked classes, and when `num_classes ≥ 5`
that set has exactly 5 indices, even when scores tie at the 5th-place
boundary (the pinned lowest-index-wins tie-break totally orders the
classes). -/
theorem claim_C3_top5_membership (nc : ℕ) (st : AccState)
    (p : List Score) (lbl : ℕ) (st' : AccState) (qs : List ℚ)
    (hq : collectScores p = some qs)
    (hup : update nc st [p] [lbl] = .ok st')
    (h5 : 5 ≤ nc) :
    (st'.top5_correct = st.top5_correct + 1 ↔ lbl ∈ top5Set qs) ∧
      (top5Set qs).card = 5 := by
  obtain ⟨exs, hv, -, hb, -⟩ := update_ok_elim nc st [p] [lbl] st' hup
  obtain ⟨-, hva, -⟩ := validateBatch_some_elim nc [p] [lbl] exs hv
  have hzip : ([p] : List (List Score)).zip [lbl] = [(p, lbl)] := rfl
  rw [hzip] at hva
  cases hve : validateExample nc p lbl with
  | none => rw [validateAll, hve] at hva; cases hva
  | some v =>
    rw [validateAll, hve] at hva
    simp only [validateAll, Option.some_bind, Option.map_some',
      Option.some.injEq] at hva
    obtain ⟨qs₀, hqs₀, hveq, hlen, hlbl⟩ :=
      validateExample_some_elim nc p lbl v hve
    rw [hq] at hqs₀
    cases hqs₀
    subst hveq
    rw [← hva] at hb
    have hlbl' : lbl < qs.length := by rw [hlen]; exact hlbl
    constructor
    · rw [hb]
      simp only [List.countP_cons, List.countP_nil]
      rw [mem_top5Set_iff]
      by_cases hc : top5Check qs lbl
      · simp [hc, hlbl']
        exact hc
      · simp [hc]
        exact fun _ => le_of_not_lt (fun hlt => hc hlt)
    · rw [top5Set_card, hlen]
      exact min_eq_left h5

/-- Witness for C3: six classes with distinct scores, label at the top. -/
theorem claim_C3_witness :
    ((AccState.mk 1 1 1).top5_correct = reset.top5_correct + 1 ↔
        5 ∈ top5Set [1, 2, 3, 4, 5, 6]) ∧
      (top5Set [1, 2, 3, 4, 5, 6]).card = 5 :=
  claim_C3_top5_membership 6 reset
    [some 1, some 2, some 3, some 4, some 5, some 6] 5 (AccState.mk 1 1 1)
    [1, 2, 3, 4, 5, 6] rfl rfl (by norm_num)

/-- C4: whenever `total_examples_seen > 0`, `finalize()` on a reachable
state returns exactly the pair
`(top1_correct / total_examples_seen, top5_correct / total_examples_seen)`,
and both fractions lie in the interval `[0, 1]`. -/
theorem claim_C4_finalize_value (nc : ℕ) (st : AccState)
    (hr : Reachable nc st) (h0 : 0 < st.total_examples_seen) :
    finalize st = .ok
        ((st.top1_correct : ℚ) / (st.total_examples_seen : ℚ),
         (st.top5_correct : ℚ) / (st.total_examples_seen : ℚ)) ∧
      0 ≤ (st.top1_correct : ℚ) / (st.total_examples_seen : ℚ) ∧
      (st.top1_correct : ℚ) / (st.total_examples_seen : ℚ) ≤ 1 ∧
      0 ≤ (st.top5_correct : ℚ) / (st.total_examples_seen : ℚ) ∧
      (st.top5_correct : ℚ) / (st.total_examples_seen : ℚ) ≤ 1 := by
  obtain ⟨batches, hb⟩ := hr
  obtain ⟨h15, h5t⟩ :=
    runBatches_invariant nc reset batches st hb (le_refl 0) (le_refl 0)
  have h1t : st.top1_correct ≤ st.total_examples_seen := le_trans h15 h5t
  have hpos : (0 : ℚ) < (st.total_examples_seen : ℚ) := by
    exact_mod_cast h0
  refine ⟨?_, ?_, ?_, ?_, ?_⟩
  · rw [finalize, if_neg (by omega)]
  · positivity
  · rw [div_le_one hpos]
    exact_mod_cast h1t
  · positivity
  · rw [div_le_one hpos]
    exact_mod_cast h5t

/-- Witness for C4: the state reached by one single-example batch. -/
theorem claim_C4_witness :
    finalize (AccState.mk 1 1 1) = .ok
        (((1 : ℕ) : ℚ) / ((1 : ℕ) : ℚ), ((1 : ℕ) : ℚ) / ((1 : ℕ) : ℚ)) ∧
      0 ≤ ((1 : ℕ) : ℚ) / ((1 : ℕ) : ℚ) ∧
      ((1 : ℕ) : ℚ) / ((1 : ℕ) : ℚ) ≤ 1 ∧
      0 ≤ ((1 : ℕ) : ℚ) / ((1 : ℕ) : ℚ) ∧
      ((1 : ℕ) : ℚ) / ((1 : ℕ) : ℚ) ≤ 1 :=
  claim_C4_finalize_value 1 (AccState.mk 1 1 1)
    ⟨[([[some 0]], [0])], rfl⟩ (by norm_num)

/-- C10: for every `batch_size` that does not evenly divide the 50000
validation examples, the loader yields `ceil(50000/batch_size)` batches —
exactly one more than the progress denominator
`num_batches = int(50000/batch_size)` — and the examples of the final
shorter batch are still counted: the run succeeds with
`total_examples_seen = 50000`.  `num_batches` appears nowhere in
`evalLoop`, so it influences only the printed progress messages, never the
computed fractions. -/
theorem claim_C10_partial_batch_counted (bs : ℕ) (hbs : 0 < bs)
    (hnd : ¬ bs ∣ 50000) (nc : ℕ) (examples : List (List Score × ℕ))
    (hlen : examples.length = 50000)
    (hvalid : ∀ e ∈ examples, (validateExample nc e.1 e.2).isSome) :
    (chunks bs examples).length = num_batches bs + 1 ∧
      ∃ st, evalLoop nc bs examples = .ok st ∧
        st.total_examples_seen = 50000 := by
  constructor
  · rw [chunks_length_eq bs hbs examples, hlen, num_batches]
    have e1 : 50000 + bs - 1 = 49999 + bs := by omega
    rw [e1, Nat.add_div_right _ hbs]
    have h50 : (50000 : ℕ) = 49999 + 1 := by norm_num
    have hsd : (50000 : ℕ) / bs = 49999 / bs := by
      rw [h50, Nat.succ_div, if_neg (fun hdvd => hnd (by rw [h50]; exact hdvd))]
      omega
    rw [hsd]
  · have hv : ∀ b ∈ (chunks bs examples).map toBatch,
        ∃ vs, validateBatch nc b.1 b.2 = some vs := by
      intro b hb
      rw [List.mem_map] at hb
      obtain ⟨c, hc, rfl⟩ := hb
      exact validateBatch_toBatch nc c
        (fun e he => hvalid e (mem_of_mem_chunks bs hbs examples c hc e he))
    obtain ⟨st, hst⟩ := runBatches_ok_of_valid nc reset _ hv
    refine ⟨st, hst, ?_⟩
    have htot := runBatches_total_eq nc reset _ st hst
    rw [htot]
    have hmm : (((chunks bs examples).map toBatch).map
          (fun b => b.2.length)).sum
        = ((chunks bs examples).map List.length).sum := by
      rw [List.map_map]
      congr 1
      apply List.map_congr_left
      intro c hc
      show ((c.map Prod.snd).length) = c.length
      rw [List.length_map]
    rw [hmm, ← List.length_flatten, chunks_flatten bs hbs examples, hlen]
    show (0 : ℕ) + 50000 = 50000
    omega

/-- Witness for C10: the notebook's own batch size 128, which does not
divide 50000, on a stream of 50000 valid single-class examples. -/
theorem claim_C10_witness :
    (chunks 128 (List.replicate 50000 (([some 0], 0) :
        List Score × ℕ))).length = num_batches 128 + 1 ∧
      ∃ st, evalLoop 1 128 (List.replicate 50000 (([some 0], 0) :
          List Score × ℕ)) = .ok st ∧
        st.total_examples_seen = 50000 :=
  claim_C10_partial_batch_counted 128 (by norm_num) (by decide) 1 _
    (List.length_replicate 50000 _)
    (fun e he => by rw [List.eq_of_mem_replicate he]; rfl)

end ImagenetValidation
